import Mathlib

/-!
Verification of the `Podcast` model (`mediacore/model/podcasts.py`).

The module is a declarative ORM mapping: a `podcasts` table, a slug
validator, an `Author` composite over the two author columns, a dynamic
`media` relation, and two aggregate column properties (`media_count`,
`media_count_published`) computed by SQL `SELECT COUNT` subqueries over
the `media` table.

The embedding models a table as a `List` of row records and each SQL
aggregate as a Lean function on that list.  SQL comparisons against a
nullable column follow SQL semantics: a comparison with NULL is not
satisfied, so a row with a NULL operand never passes the WHERE clause.
Timestamps are modelled as natural numbers.
-/

/-- A row of the external `media` table, restricted to the columns that
`podcasts.py` reads in its two aggregate subqueries: `id`, `podcast_id`
(nullable foreign key to `podcasts.id`), `reviewed`, `encoded`,
`publishable`, `publish_on` (nullable timestamp) and `publish_until`
(nullable timestamp). -/
structure MediaRow where
  id : Nat
  podcast_id : Option Nat
  reviewed : Bool
  encoded : Bool
  publishable : Bool
  publish_on : Option Nat
  publish_until : Option Nat
deriving Repr, DecidableEq

/-- A row of the `podcasts` table, column for column from the `Table`
declaration in `podcasts.py`.  `explicit` is the tri-state iTunes flag:
`some true` = 'yes', `none` = no advisory displays, `some false` =
'clean'.  Optional string columns are `Option String`. -/
structure PodcastRow where
  id : Nat
  slug : String
  created_on : Nat
  modified_on : Nat
  title : String
  subtitle : Option String
  description : Option String
  category : Option String
  author_name : String
  author_email : String
  explicit : Option Bool
  copyright : Option String
  itunes_url : Option String
  feedburner_url : Option String
deriving Repr, DecidableEq

/-- The WHERE clause of the `media_count_published` subquery, translated
conjunct for conjunct from the `sql.and_` in `podcasts.py`:
`media.c.podcast_id == podcasts.c.id`, `media.c.reviewed == True`,
`media.c.encoded == True`, `media.c.publishable == True`,
`media.c.publish_on <= current_timestamp`, and
`media.c.publish_until == None OR media.c.publish_until >= current_timestamp`.
A NULL `publish_on` fails the `<=` comparison, per SQL. -/
def publishedFilter (now : Nat) (pid : Nat) (m : MediaRow) : Bool :=
  (m.podcast_id == some pid) &&
  m.reviewed &&
  m.encoded &&
  m.publishable &&
  (match m.publish_on with
   | some t => decide (t ≤ now)
   | none => false) &&
  (match m.publish_until with
   | none => true
   | some t => decide (now ≤ t))

/-- The `media_count` column property: `SELECT COUNT(media.id) WHERE
media.podcast_id == podcasts.id`, as a function of the podcast id and the
current contents of the `media` table. -/
def media_count (pid : Nat) (rows : List MediaRow) : Nat :=
  (rows.filter (fun m => m.podcast_id == some pid)).length

/-- The `media_count_published` column property: the same COUNT filtered
by the five-part published predicate, evaluated at the current
timestamp `now`. -/
def media_count_published (now : Nat) (pid : Nat) (rows : List MediaRow) : Nat :=
  (rows.filter (publishedFilter now pid)).length

/-- The published predicate as the specification states it: reviewed,
encoding complete, publishable, publish-start timestamp at or before the
current time, and the end timestamp either absent or at or after the
current time — for a row referencing the given podcast. -/
def SpecPublished (now : Nat) (pid : Nat) (m : MediaRow) : Prop :=
  m.podcast_id = some pid ∧
  m.reviewed = true ∧
  m.encoded = true ∧
  m.publishable = true ∧
  (∃ t, m.publish_on = some t ∧ t ≤ now) ∧
  (m.publish_until = none ∨ ∃ u, m.publish_until = some u ∧ now ≤ u)

lemma publishedFilter_iff (now pid : Nat) (m : MediaRow) :
    publishedFilter now pid m = true ↔ SpecPublished now pid m := by
  unfold publishedFilter SpecPublished
  cases hon : m.publish_on <;> cases hun : m.publish_until <;>
    simp [hon, hun, Bool.and_eq_true, beq_iff_eq, and_assoc]

instance (now pid : Nat) (m : MediaRow) : Decidable (SpecPublished now pid m) :=
  decidable_of_iff _ (publishedFilter_iff now pid m)

/-- C1: for every podcast id, every media table and every current time,
the `media_count_published` aggregate equals the number of media rows
referencing that podcast that satisfy all five parts of the published
predicate of the specification. -/
theorem media_count_published_eq_spec_count (now pid : Nat) (rows : List MediaRow) :
    media_count_published now pid rows =
      rows.countP (fun m => decide (SpecPublished now pid m)) := by
  unfold media_count_published
  rw [← List.countP_eq_length_filter]
  refine List.countP_congr ?_
  intro m _
  constructor
  · intro h
    exact decide_eq_true ((publishedFilter_iff now pid m).mp h)
  · intro h
    exact (publishedFilter_iff now pid m).mpr (of_decide_eq_true h)

/-- C2: for every podcast id, every media table and every current time,
the published count is at most the total count. -/
theorem media_count_published_le_media_count (now pid : Nat) (rows : List MediaRow) :
    media_count_published now pid rows ≤ media_count pid rows := by
  unfold media_count_published media_count
  rw [← List.countP_eq_length_filter, ← List.countP_eq_length_filter]
  refine List.countP_mono_left ?_
  intro m _ h
  unfold publishedFilter at h
  simp only [Bool.and_eq_true] at h
  exact h.1.1.1.1.1

/-- C3: the `media_count` aggregate equals the number of media rows whose
owning-podcast reference equals the podcast's id, and a podcast with no
associated media rows reads both counts as zero. -/
theorem media_count_eq_ref_count (now pid : Nat) (rows : List MediaRow) :
    media_count pid rows = rows.countP (fun m => decide (m.podcast_id = some pid)) ∧
    media_count pid [] = 0 ∧
    media_count_published now pid [] = 0 := by
  refine ⟨?_, rfl, rfl⟩
  unfold media_count
  rw [← List.countP_eq_length_filter]
  refine List.countP_congr ?_
  intro m _
  simp [beq_iff_eq]

/-- ASCII lower-casing of one character: the A–Z range maps to a–z,
everything else is unchanged. -/
def lowerChar (c : Char) : Char :=
  if 65 ≤ c.toNat && c.toNat ≤ 90 then Char.ofNat (c.toNat + 32) else c

/-- A character that survives slugification: an ASCII lower-case letter
or a digit.  Everything else is treated as a separator. -/
def keepChar (c : Char) : Bool :=
  (97 ≤ c.toNat && c.toNat ≤ 122) || (48 ≤ c.toNat && c.toNat ≤ 57)

/-- Core of the slug normalization, over the already lower-cased
character list.  `started` records whether a kept character has been
emitted yet.  Runs of separator characters collapse to a single dash,
and no dash is emitted before the first kept character or after the
last one. -/
def slugAux (started : Bool) : List Char → List Char
  | [] => []
  | c :: cs =>
    if keepChar c then c :: slugAux true cs
    else if started && cs.any keepChar then '-' :: slugAux false cs
    else slugAux started cs

/-- Modelled from the spec: `slugify` is imported by `podcasts.py` from
`mediacore.model` and its body is not part of this file.  Per the spec it
deterministically produces a URL-safe, lower-case, separator-normalized
string: input is lower-cased, whitespace/punctuation is collapsed to
single dash separators, and the transformation is idempotent. -/
def slugify (s : String) : String :=
  String.mk (slugAux false (s.data.map lowerChar))

/-- The `@validates('slug')` hook of the `Podcast` class: any value
assigned to the slug field is replaced by its slugification. -/
def validate_slug (slug : String) : String :=
  slugify slug

/-- Assignment to the `slug` field of a mapped `Podcast` record: the ORM
routes the incoming value through `validate_slug` before storing it. -/
def setSlug (p : PodcastRow) (s : String) : PodcastRow :=
  { p with slug := validate_slug s }

lemma keepChar_lowerChar_fix (c : Char) (h : keepChar c = true) : lowerChar c = c := by
  unfold keepChar at h
  unfold lowerChar
  rw [if_neg]
  simp only [Bool.or_eq_true, Bool.and_eq_true, decide_eq_true_iff] at h
  simp only [Bool.and_eq_true, decide_eq_true_iff, not_and]
  omega

lemma dash_lowerChar_fix : lowerChar '-' = '-' := by decide

lemma dash_not_keep : keepChar '-' = false := by decide

lemma slugAux_cons (b : Bool) (c : Char) (cs : List Char) :
    slugAux b (c :: cs) =
      if keepChar c then c :: slugAux true cs
      else if b && cs.any keepChar then '-' :: slugAux false cs
      else slugAux b cs := rfl

lemma slugAux_mem (b : Bool) (l : List Char) :
    ∀ c ∈ slugAux b l, keepChar c = true ∨ c = '-' := by
  induction l generalizing b with
  | nil => intro c hc; simp [slugAux] at hc
  | cons a as ih =>
    intro c hc
    rw [slugAux_cons] at hc
    by_cases hk : keepChar a = true
    · rw [if_pos hk] at hc
      rcases List.mem_cons.mp hc with h | h
      · exact Or.inl (h ▸ hk)
      · exact ih true c h
    · rw [if_neg hk] at hc
      by_cases hs : (b && as.any keepChar) = true
      · rw [if_pos hs] at hc
        rcases List.mem_cons.mp hc with h | h
        · exact Or.inr h
        · exact ih false c h
      · rw [if_neg hs] at hc
        exact ih b c hc

lemma slugAux_head_keep (l : List Char) (h : l.any keepChar = true) :
    ∃ d ds, slugAux false l = d :: ds ∧ keepChar d = true := by
  induction l with
  | nil => simp at h
  | cons a as ih =>
    by_cases hk : keepChar a = true
    · exact ⟨a, slugAux true as, by rw [slugAux_cons, if_pos hk], hk⟩
    · have h' : as.any keepChar = true := by
        simp only [List.any_cons, Bool.or_eq_true] at h
        rcases h with h | h
        · exact absurd h hk
        · exact h
      obtain ⟨d, ds, hd, hdk⟩ := ih h'
      refine ⟨d, ds, ?_, hdk⟩
      rw [slugAux_cons, if_neg hk]
      simpa using hd

lemma slugAux_idem (l : List Char) (b : Bool) :
    slugAux b (slugAux b l) = slugAux b l := by
  induction l generalizing b with
  | nil => rfl
  | cons a as ih =>
    rw [slugAux_cons]
    by_cases hk : keepChar a = true
    · rw [if_pos hk, slugAux_cons, if_pos hk, ih true]
    · rw [if_neg hk]
      by_cases hs : (b && as.any keepChar) = true
      · have hb : b = true := ((Bool.and_eq_true _ _).mp hs).1
        have hany : as.any keepChar = true := ((Bool.and_eq_true _ _).mp hs).2
        rw [if_pos hs, slugAux_cons]
        have hdn : ¬ (keepChar '-' = true) := by rw [dash_not_keep]; exact Bool.false_ne_true
        rw [if_neg hdn]
        obtain ⟨d, ds, hd, hdk⟩ := slugAux_head_keep as hany
        have hX : (slugAux false as).any keepChar = true := by
          rw [hd]; simp [hdk]
        rw [hb, hX]
        simp only [Bool.and_self, if_true]
        exact congrArg (List.cons '-') (ih false)
      · rw [if_neg hs]
        exact ih b

lemma map_id_of_fix {l : List Char} {f : Char → Char} (h : ∀ c ∈ l, f c = c) :
    l.map f = l := by
  induction l with
  | nil => rfl
  | cons a as ih =>
    rw [List.map_cons, h a (List.mem_cons_self a as),
      ih (fun c hc => h c (List.mem_cons_of_mem a hc))]

lemma map_lowerChar_slugAux (b : Bool) (l : List Char) :
    (slugAux b l).map lowerChar = slugAux b l := by
  refine map_id_of_fix ?_
  intro c hc
  rcases slugAux_mem b l c hc with h | h
  · exact keepChar_lowerChar_fix c h
  · rw [h]; exact dash_lowerChar_fix

lemma slugify_idempotent (s : String) : slugify (slugify s) = slugify s := by
  unfold slugify
  refine congrArg String.mk ?_
  show slugAux false ((slugAux false (s.data.map lowerChar)).map lowerChar) =
    slugAux false (s.data.map lowerChar)
  rw [map_lowerChar_slugAux, slugAux_idem]

/-- C4: assigning any string to the slug field stores exactly the
slugification of that input — the validator is the only path into the
field — and every character of the stored value is URL-safe: a
lower-case ASCII letter, a digit, or a dash separator. -/
theorem setSlug_normalizes (p : PodcastRow) (s : String) :
    (setSlug p s).slug = slugify s ∧
    ∀ c ∈ (setSlug p s).slug.data, keepChar c = true ∨ c = '-' := by
  refine ⟨rfl, ?_⟩
  intro c hc
  exact slugAux_mem false (s.data.map lowerChar) c hc

/-- C5: the transformation applied by the slug validator is idempotent:
validating an already-validated slug changes nothing. -/
theorem validate_slug_idempotent (s : String) :
    validate_slug (validate_slug s) = validate_slug s :=
  slugify_idempotent s

/-- Fuel-bounded search for a free slug: while the candidate collides
with an existing slug, append a further disambiguating suffix. -/
def availAux (existing : List String) : Nat → String → String
  | 0, s => s
  | fuel + 1, s => if s ∈ existing then availAux existing fuel (s ++ "-2") else s

/-- Modelled from the spec: `get_available_slug` is imported by
`podcasts.py` from `mediacore.model` and its body is not part of this
file.  Per the spec, it normalizes the desired slug and enforces
uniqueness against the existing slugs by appending a disambiguating
suffix when a collision occurs.  The fuel `existing.length + 1` always
suffices, because successive candidates are pairwise distinct. -/
def get_available_slug (existing : List String) (desired : String) : String :=
  availAux existing (existing.length + 1) (slugify desired)

lemma availAux_succ (existing : List String) (fuel : Nat) (s : String) :
    availAux existing (fuel + 1) s =
      if s ∈ existing then availAux existing fuel (s ++ "-2") else s := rfl

lemma countP_lt_of_mem {α : Type} (p q : α → Bool) (a : α) (l : List α)
    (ha : a ∈ l) (hpa : p a = true) (hqa : q a = false)
    (himp : ∀ x, q x = true → p x = true) :
    l.countP q < l.countP p := by
  induction l with
  | nil => cases ha
  | cons b bs ih =>
    rw [List.countP_cons, List.countP_cons]
    rcases List.mem_cons.mp ha with h | h
    · subst h
      have hmono : List.countP q bs ≤ List.countP p bs :=
        List.countP_mono_left (fun x _ hx => himp x hx)
      rw [hpa, hqa]
      simp only [if_true, Bool.false_eq_true, if_false]
      omega
    · have hlt := ih h
      cases hqb : q b
      · cases hpb : p b <;> simp <;> omega
      · rw [himp b hqb]
        simp only [if_true]
        omega

lemma length_append_dash2 (s : String) : (s ++ "-2").length = s.length + 2 := by
  rw [String.length_append]
  rfl

lemma availAux_not_mem (fuel : Nat) :
    ∀ (existing : List String) (s : String),
      existing.countP (fun x => decide (s.length ≤ x.length)) < fuel →
      availAux existing fuel s ∉ existing := by
  induction fuel with
  | zero => intro ex s h; omega
  | succ f ih =>
    intro ex s h
    rw [availAux_succ]
    by_cases hm : s ∈ ex
    · rw [if_pos hm]
      refine ih ex (s ++ "-2") ?_
      have key : ex.countP (fun x => decide ((s ++ "-2").length ≤ x.length)) <
          ex.countP (fun x => decide (s.length ≤ x.length)) := by
        refine countP_lt_of_mem _ _ s ex hm ?_ ?_ ?_
        · exact decide_eq_true (le_refl s.length)
        · rw [decide_eq_false_iff_not, length_append_dash2]
          omega
        · intro x hx
          rw [decide_eq_true_iff] at hx ⊢
          rw [length_append_dash2] at hx
          omega
      omega
    · rw [if_neg hm]
      exact hm

lemma get_available_slug_not_mem (existing : List String) (desired : String) :
    get_available_slug existing desired ∉ existing := by
  refine availAux_not_mem (existing.length + 1) existing (slugify desired) ?_
  exact Nat.lt_succ_of_le (List.countP_le_length _)

lemma availAux_append (existing : List String) (fuel : Nat) :
    ∀ s, ∃ t, availAux existing fuel s = s ++ t := by
  induction fuel with
  | zero => intro s; exact ⟨"", by simp [availAux]⟩
  | succ f ih =>
    intro s
    rw [availAux_succ]
    by_cases hm : s ∈ existing
    · rw [if_pos hm]
      obtain ⟨t, ht⟩ := ih (s ++ "-2")
      exact ⟨"-2" ++ t, by rw [ht, String.append_assoc]⟩
    · rw [if_neg hm]
      exact ⟨"", by simp⟩

/-- C6: when the normalized slug collides with an existing podcast's
slug, `get_available_slug` returns the normalized slug extended by a
non-empty disambiguating suffix, and the result differs from every
existing slug. -/
theorem get_available_slug_disambiguates (existing : List String) (s : String)
    (h : slugify s ∈ existing) :
    get_available_slug existing s ∉ existing ∧
    ∃ suf, suf ≠ "" ∧ get_available_slug existing s = slugify s ++ suf := by
  refine ⟨get_available_slug_not_mem existing s, ?_⟩
  unfold get_available_slug
  rw [availAux_succ, if_pos h]
  obtain ⟨t, ht⟩ := availAux_append existing existing.length (slugify s ++ "-2")
  refine ⟨"-2" ++ t, ?_, by rw [ht, String.append_assoc]⟩
  intro e
  have hlen := congrArg String.length e
  rw [String.length_append] at hlen
  have h2 : ("-2" : String).length = 2 := rfl
  have h0 : ("" : String).length = 0 := rfl
  rw [h2, h0] at hlen
  omega

/-- Witness for C6 at a concrete input: the normalization of `"Hello"`
collides with the existing slug `"hello"` and is disambiguated. -/
theorem get_available_slug_disambiguates_witness :
    get_available_slug ["hello"] "Hello" ∉ ["hello"] ∧
    ∃ suf, suf ≠ "" ∧ get_available_slug ["hello"] "Hello" = slugify "Hello" ++ suf :=
  get_available_slug_disambiguates ["hello"] "Hello" (by decide)

/-- A storage-layer uniqueness violation, carrying the column and the
offending value. -/
structure UniquenessViolation where
  column : String
  value : String
deriving Repr, DecidableEq

/-- Modelled from the spec: the storage layer enforcing the
`unique=True` constraint declared on the `slug` column of the
`podcasts` table.  An INSERT whose slug equals an existing row's slug
fails with a uniqueness violation; this module defines no handler for
it, so the error value is returned unchanged. -/
def insertPodcast (table : List PodcastRow) (p : PodcastRow) :
    Except UniquenessViolation (List PodcastRow) :=
  if table.any (fun r => r.slug == p.slug) then
    Except.error { column := "slug", value := p.slug }
  else
    Except.ok (table ++ [p])

/-- Creating a podcast: the incoming slug value passes through the
`@validates('slug')` hook and the row is then inserted into the
`podcasts` table. -/
def createPodcast (table : List PodcastRow) (p : PodcastRow) (slugInput : String) :
    Except UniquenessViolation (List PodcastRow) :=
  insertPodcast table (setSlug p slugInput)

/-- C7: if two slug inputs normalize to the same value, the first
creation succeeds and the second fails with the storage layer's
uniqueness violation on the slug column, returned unchanged to the
caller. -/
theorem slug_uniqueness_violation_propagates
    (table t1 : List PodcastRow) (p1 p2 : PodcastRow) (s1 s2 : String)
    (hslug : slugify s1 = slugify s2)
    (hok : createPodcast table p1 s1 = Except.ok t1) :
    createPodcast t1 p2 s2 =
      Except.error { column := "slug", value := slugify s2 } := by
  unfold createPodcast insertPodcast at hok ⊢
  by_cases hc : (table.any fun r => r.slug == (setSlug p1 s1).slug) = true
  · rw [if_pos hc] at hok
    exact absurd hok (by simp)
  · rw [if_neg hc] at hok
    have ht1 : table ++ [setSlug p1 s1] = t1 := by
      injection hok
    subst ht1
    have hmem : ((table ++ [setSlug p1 s1]).any
        fun r => r.slug == (setSlug p2 s2).slug) = true := by
      rw [List.any_append]
      refine Bool.or_eq_true _ _ |>.mpr (Or.inr ?_)
      simp [setSlug, validate_slug, hslug]
    rw [if_pos hmem]
    rfl

/-- A concrete `podcasts` row used by the closed witnesses. -/
def sampleRow : PodcastRow :=
  { id := 1, slug := "", created_on := 0, modified_on := 0, title := "t",
    subtitle := none, description := none, category := none,
    author_name := "n", author_email := "e", explicit := none,
    copyright := none, itunes_url := none, feedburner_url := none }

/-- Witness for C7 at concrete inputs: `"My Show"` and `"my  show!"`
slugify to the same value, so the second insert fails with the slug
uniqueness violation. -/
theorem slug_uniqueness_violation_propagates_witness :
    slugify "My Show" = slugify "my  show!" ∧
    createPodcast [setSlug sampleRow "My Show"] sampleRow "my  show!" =
      Except.error { column := "slug", value := slugify "my  show!" } :=
  ⟨by decide,
   slug_uniqueness_violation_propagates [] [setSlug sampleRow "My Show"]
     sampleRow sampleRow "My Show" "my  show!" (by decide) rfl⟩

/-- Assignment to the `explicit` column: `some true` = 'yes', `none` =
no advisory displays, `some false` = 'clean', per the column's
docstring.  No validator applies to this column. -/
def setExplicit (p : PodcastRow) (v : Option Bool) : PodcastRow :=
  { p with explicit := v }

/-- C8: writing true, then unset, then false to the explicit flag and
reading it back after each write yields the three pairwise-distinct
states affirmative, unset and clean, in that order. -/
theorem explicit_tristate (p : PodcastRow) :
    (setExplicit p (some true)).explicit = some true ∧
    (setExplicit (setExplicit p (some true)) none).explicit = none ∧
    (setExplicit (setExplicit (setExplicit p (some true)) none) (some false)).explicit
      = some false ∧
    (some true : Option Bool) ≠ none ∧
    (some true : Option Bool) ≠ some false ∧
    (none : Option Bool) ≠ some false :=
  ⟨rfl, rfl, rfl, by decide, by decide, by decide⟩

/-- The `Author` value object from `mediacore.model.authors`: a plain
name/email pair with no identity of its own. -/
structure Author where
  name : String
  email : String
deriving Repr, DecidableEq

/-- The `author` composite of the mapper: reading it builds an `Author`
from the `author_name` and `author_email` columns. -/
def author (p : PodcastRow) : Author :=
  { name := p.author_name, email := p.author_email }

/-- Writing the `author` composite: both underlying columns are set in
the same record mutation; every other column is untouched. -/
def setAuthor (p : PodcastRow) (a : Author) : PodcastRow :=
  { p with author_name := a.name, author_email := a.email }

/-- C9: reading the composite exposes the two author columns, writing
it sets exactly those two columns in one record mutation (all other
columns unchanged), and reading back after a write returns the written
value — the composite is a view over the columns, with no stored
entity behind it. -/
theorem author_composite (p : PodcastRow) (a : Author) :
    (author p).name = p.author_name ∧
    (author p).email = p.author_email ∧
    (setAuthor p a).author_name = a.name ∧
    (setAuthor p a).author_email = a.email ∧
    author (setAuthor p a) = a ∧
    (setAuthor p a).id = p.id ∧
    (setAuthor p a).slug = p.slug ∧
    (setAuthor p a).created_on = p.created_on ∧
    (setAuthor p a).modified_on = p.modified_on ∧
    (setAuthor p a).title = p.title ∧
    (setAuthor p a).subtitle = p.subtitle ∧
    (setAuthor p a).description = p.description ∧
    (setAuthor p a).category = p.category ∧
    (setAuthor p a).explicit = p.explicit ∧
    (setAuthor p a).copyright = p.copyright ∧
    (setAuthor p a).itunes_url = p.itunes_url ∧
    (setAuthor p a).feedburner_url = p.feedburner_url := by
  refine ⟨rfl, rfl, rfl, rfl, ?_, rfl, rfl, rfl, rfl, rfl, rfl, rfl, rfl, rfl, rfl, rfl, rfl⟩
  cases a
  rfl

/-- The default loading path of the mapper: `mapper(Podcast, podcasts,
order_by=podcasts.c.title, ...)` sorts any query that does not specify
its own ordering by the `title` column. -/
def loadPodcasts (rows : List PodcastRow) : List PodcastRow :=
  rows.mergeSort (fun a b => decide (a.title ≤ b.title))

/-- C10: loading podcast records without an explicit ordering returns
the rows of the table sorted by the `title` column: the result is
title-sorted and a permutation of the table's rows. -/
theorem default_order_by_title (rows : List PodcastRow) :
    (loadPodcasts rows).Pairwise (fun a b => a.title ≤ b.title) ∧
    (loadPodcasts rows).Perm rows := by
  constructor
  · have htrans : ∀ a b c : PodcastRow, decide (a.title ≤ b.title) = true →
        decide (b.title ≤ c.title) = true → decide (a.title ≤ c.title) = true := by
      intro a b c hab hbc
      rw [decide_eq_true_iff] at hab hbc ⊢
      exact le_trans hab hbc
    have htotal : ∀ a b : PodcastRow,
        (decide (a.title ≤ b.title) || decide (b.title ≤ a.title)) = true := by
      intro a b
      rcases le_total a.title b.title with h | h <;> simp [h]
    have h := List.sorted_mergeSort htrans htotal rows
    refine h.imp ?_
    intro a b hab
    exact of_decide_eq_true hab
  · exact List.mergeSort_perm rows _
